import Mathlib

set_option maxHeartbeats 1000000

/-! Shallow embedding of the wheedle implicit-factorization recommender
(`src/lib.rs`): the sparse interaction data model, dimension discovery,
prediction, the partitioned training-loss aggregation of `fit`, and the
MRR evaluator.  External collaborators (the `wyrm` autodiff engine, the
`rand` random source, the `rayon` thread pool) are modelled as explicit
parameters, exactly at the boundary the source delegates to them. -/

/-- Errors of the embedded API.  The source uses `&'static str`; the only
error value it ever constructs is the string "Model must be fitted first."
(the NotFitted condition), modelled by the single constructor below. -/
inductive RErr where
  | notFitted : RErr
deriving DecidableEq

/-- Outcome of a Rust call: a successful value, a returned `Err`, or a
process panic (`unwrap` on `None`/`Err`, out-of-bounds indexing). -/
inductive RResult (α : Type) where
  | ok : α → RResult α
  | err : RErr → RResult α
  | panicked : RResult α
deriving DecidableEq

/-- Model of IEEE-754 `f32` as used by the source: exact rationals plus the
special values NaN and the two infinities.  The claims proved in this file
depend only on the special-value propagation rules (in particular
`0.0 / 0.0 = NaN`), never on rounding, so entries of finite values are kept
exact.  Negative zero is not modelled: every divisor in the source arises
as a cast of a nonnegative integer. -/
inductive F where
  | nan : F
  | inf : F
  | neginf : F
  | val : ℚ → F
deriving DecidableEq

/-- IEEE `f32` addition on the model: NaN absorbs, opposite infinities give
NaN, an infinity absorbs finite values, finite values add exactly. -/
def F.add : F → F → F
  | F.nan, _ => F.nan
  | _, F.nan => F.nan
  | F.inf, F.neginf => F.nan
  | F.neginf, F.inf => F.nan
  | F.inf, _ => F.inf
  | _, F.inf => F.inf
  | F.neginf, _ => F.neginf
  | _, F.neginf => F.neginf
  | F.val a, F.val b => F.val (a + b)

/-- IEEE `f32` division on the model: NaN absorbs, `0/0` and `inf/inf` give
NaN, a nonzero finite value divided by zero gives a signed infinity, finite
values divide exactly (negative zero is not modelled). -/
def F.div : F → F → F
  | F.nan, _ => F.nan
  | _, F.nan => F.nan
  | F.inf, F.inf => F.nan
  | F.inf, F.neginf => F.nan
  | F.neginf, F.inf => F.nan
  | F.neginf, F.neginf => F.nan
  | F.inf, F.val b => if b < 0 then F.neginf else F.inf
  | F.neginf, F.val b => if b < 0 then F.inf else F.neginf
  | F.val _, F.inf => F.val 0
  | F.val _, F.neginf => F.val 0
  | F.val a, F.val b =>
    if b = 0 then (if a = 0 then F.nan else if a < 0 then F.neginf else F.inf)
    else F.val (a / b)

/-- Model of `iter().sum::<f32>()`: left fold of `F.add` from `0.0`. -/
def F.sum (l : List F) : F := l.foldl F.add (F.val 0)

/-- The sole shipped `Interaction` variant (`UnweightedInteraction`,
weight fixed at `1.0`). -/
structure UnweightedInteraction where
  user_id : Nat
  item_id : Nat
deriving DecidableEq

/-- Sparse interaction matrix: per-user sorted item-id rows
(`num_users`, `num_items`, `rows : Vec<Vec<usize>>`). -/
structure InteractionMatrix where
  num_users : Nat
  num_items : Nat
  rows : List (List Nat)
deriving DecidableEq

/-- Constructor `InteractionMatrix::new`: all rows empty. -/
def InteractionMatrix.new (num_users num_items : Nat) : InteractionMatrix :=
  ⟨num_users, num_items, List.replicate num_users []⟩

/-- Model of `self.rows[user_id].binary_search(&item_id)` followed by
`insert` at the returned position: on the sorted, duplicate-free rows the
source maintains, this is exactly ordered insertion that is a no-op when
the item is already present (the `Ok` branch of `binary_search`). -/
def insertSorted (x : Nat) : List Nat → List Nat
  | [] => [x]
  | y :: ys =>
    if x < y then x :: y :: ys
    else if x = y then y :: ys
    else y :: insertSorted x ys

/-- Method `InteractionMatrix::add`: ordered, idempotent insertion into the
user's row.  Row access `self.rows[user_id]` is total here via `getD`/`set`
(a no-op out of bounds); the theorems below only use in-bounds indices,
where the source would not panic. -/
def InteractionMatrix.add (m : InteractionMatrix) (user_id item_id : Nat) : InteractionMatrix :=
  ⟨m.num_users, m.num_items,
    m.rows.set user_id (insertSorted item_id (m.rows.getD user_id []))⟩

/-- Constructor `InteractionMatrix::from_interactions`: insert every
interaction's pair in input order. -/
def InteractionMatrix.from_interactions (num_users num_items : Nat)
    (interactions : List UnweightedInteraction) : InteractionMatrix :=
  interactions.foldl (fun m e => m.add e.user_id e.item_id)
    (InteractionMatrix.new num_users num_items)

/-- Accessor `InteractionMatrix::get`. -/
def InteractionMatrix.get (m : InteractionMatrix) (user_id : Nat) : List Nat :=
  m.rows.getD user_id []

/-- Function `get_dimensions`: `(max user_id + 1, max item_id + 1)`.  The
source computes each maximum with `iter().max().unwrap()`, which panics on
an empty sequence; `none` models that panic.  On a nonempty sequence of
`Nat` ids the iterator maximum equals a `max`-fold from `0`. -/
def get_dimensions (data : List UnweightedInteraction) : Option (Nat × Nat) :=
  match data with
  | [] => none
  | _ => some (((data.map fun x => x.user_id).foldl Nat.max 0) + 1,
               ((data.map fun x => x.item_id).foldl Nat.max 0) + 1)

/-- Hyperparameters of the model (builder fields of the source). -/
structure Hyperparameters where
  latent_dim : Nat
  minibatch_size : Nat
  learning_rate : ℚ
deriving DecidableEq

/-- Builder defaults: `latent_dim 16`, `minibatch_size 10`,
`learning_rate 0.01`. -/
def HyperparametersBuilder.defaults : Hyperparameters := ⟨16, 10, 1 / 100⟩

/-- Shared parameter tables (`ModelData`): `user_embedding`
(`num_users × latent_dim`), `item_embedding` (`num_items × latent_dim`) and
`item_biases` (`num_items × 1`, stored flattened as the source reads it via
`as_slice`). -/
structure ModelData where
  num_users : Nat
  num_items : Nat
  user_embedding : List (List ℚ)
  item_embedding : List (List ℚ)
  item_biases : List ℚ
deriving DecidableEq

/-- The model: hyperparameters plus an optional `ModelData` (absent until
the first successful `fit`). -/
structure ImplicitFactorizationModel where
  hyper : Hyperparameters
  model : Option ModelData
deriving DecidableEq

/-- Model of `wyrm::simd_dot`: elementwise product summed (the engine
collaborator computes exactly a dot product; rounding is irrelevant to the
claims proved here). -/
def dot (xs ys : List ℚ) : ℚ := (List.zipWith (fun a b => a * b) xs ys).sum

/-- Body of `predict` on a fitted model: for every item row of
`item_embedding` zipped with `item_biases`,
`item_bias + dot(user_vector, item_embedding_row)`. -/
def predictScores (md : ModelData) (user_id : Nat) : List ℚ :=
  (md.item_embedding.zip md.item_biases).map fun p =>
    p.2 + dot (md.user_embedding.getD user_id []) p.1

/-- Method `ImplicitFactorizationModel::predict`: `Err` (NotFitted) when no
model data exists; otherwise `subview(Axis(0), user_id)` panics when
`user_id` is out of bounds of the user-embedding table, and the score
vector is returned otherwise.  A pure read: no table is modified. -/
def ImplicitFactorizationModel.predict (m : ImplicitFactorizationModel)
    (user_id : Nat) : RResult (List ℚ) :=
  match m.model with
  | none => RResult.err RErr.notFitted
  | some md =>
    if user_id < md.user_embedding.length then RResult.ok (predictScores md user_id)
    else RResult.panicked

/-- Function `embedding_init`: a `rows × cols` table whose entries come from
the random collaborator (`rand::random::<f32>() / sqrt(cols)`; the sampled,
scaled values are supplied by `rnd`, the shape is exact). -/
def embedding_init (rnd : Nat → Nat → ℚ) (rows cols : Nat) : List (List ℚ) :=
  (List.range rows).map fun r => (List.range cols).map fun c => rnd r c

/-- Method `build_model`: three freshly initialized tables; `item_biases`
is a `num_items × 1` table read flattened. -/
def ImplicitFactorizationModel.build_model (rndU rndI rndB : Nat → Nat → ℚ)
    (num_users num_items latent_dim : Nat) : ModelData :=
  ⟨num_users, num_items,
    embedding_init rndU num_users latent_dim,
    embedding_init rndI num_items latent_dim,
    (embedding_init rndB num_items 1).flatten⟩

/-- Structural worker for `chunksOf`: the fuel starts at the list length
and strictly dominates it at every recursive call (dropping `mb ≥ 1`
elements from a nonempty list shortens it), so the fuel never runs out. -/
def chunksOfAux {α : Type} (mb : Nat) : Nat → List α → List (List α)
  | 0, _ => []
  | _, [] => []
  | fuel + 1, x :: xs => ((x :: xs).take mb) :: chunksOfAux mb fuel ((x :: xs).drop mb)

/-- Model of slice `chunks(mb)`: contiguous pieces of size `mb`, the last
possibly shorter.  Rust panics on chunk size `0`; the `mb = 0` branch is
never exercised by the theorems below. -/
def chunksOf {α : Type} (mb : Nat) (l : List α) : List (List α) :=
  if 0 < mb then chunksOfAux mb l.length l else []

/-- Inner minibatch loop of one epoch of a shard: walk the chunks in order,
`break` at the first chunk shorter than the minibatch size, and otherwise
let the engine collaborator (`step`: buffer fill, negative sampling,
forward, backward, SGD step, gradient zeroing) produce the minibatch loss
`loss.value().scalar_sum()`, accumulated into the running total. -/
def processChunks {σ : Type} (step : List UnweightedInteraction → σ → F × σ) (mb : Nat) :
    List (List UnweightedInteraction) → F × σ → F × σ
  | [], acc => acc
  | c :: cs, acc =>
    if c.length < mb then acc
    else processChunks step mb cs (F.add acc.1 (step c acc.2).1, (step c acc.2).2)

/-- Epoch loop of one shard: `num_epochs` passes over the shard's chunks,
threading the running loss total and the engine state. -/
def runEpochs {σ : Type} (step : List UnweightedInteraction → σ → F × σ)
    (mb epochs : Nat) (shard : List UnweightedInteraction) (s0 : σ) : F × σ :=
  (List.range epochs).foldl
    (fun acc _ => processChunks step mb (chunksOf mb shard) acc) (F.val 0, s0)

/-- Per-shard result of `fit`:
`loss_value / (num_epochs * (stop - start)) as f32`. -/
def shardLoss {σ : Type} (step : List UnweightedInteraction → σ → F × σ)
    (mb epochs : Nat) (shard : List UnweightedInteraction) (s0 : σ) : F :=
  F.div (runEpochs step mb epochs shard s0).1
    (F.val ((epochs * shard.length : Nat) : ℚ))

/-- Loss computation of `fit`: `chunk_size = len / num_partitions`, the
partition `k` trains on `interactions[k*chunk_size .. (k+1)*chunk_size]`,
and the per-partition results are summed.  `step k` and `s0 k` are
partition `k`'s engine collaborator: its Hogwild interleaving with the
other workers is folded into these parameters. -/
def fitLoss {σ : Type} (step : Nat → List UnweightedInteraction → σ → F × σ)
    (s0 : Nat → σ) (num_partitions mb epochs : Nat)
    (interactions : List UnweightedInteraction) : F :=
  F.sum ((List.range num_partitions).map fun k =>
    shardLoss (step k) mb epochs
      ((interactions.drop (k * (interactions.length / num_partitions))).take
        (interactions.length / num_partitions)) (s0 k))

/-- Method `ImplicitFactorizationModel::fit`: discover dimensions (panicking
on empty input), build the model tables on the first call, run the
partitioned training loop, and return the summed loss.  `upd` is the net
effect of the engine collaborator's in-place Hogwild SGD on the shared
tables; in-place updates cannot change table shapes, stated where needed
as a `ShapePreserving` hypothesis. -/
def ImplicitFactorizationModel.fit {σ : Type}
    (step : Nat → List UnweightedInteraction → σ → F × σ) (s0 : Nat → σ)
    (rndU rndI rndB : Nat → Nat → ℚ) (upd : ModelData → ModelData)
    (num_partitions : Nat) (m : ImplicitFactorizationModel)
    (interactions : List UnweightedInteraction) (num_epochs : Nat) :
    RResult (F × ImplicitFactorizationModel) :=
  match get_dimensions interactions with
  | none => RResult.panicked
  | some d =>
    let md := match m.model with
      | some md => md
      | none => ImplicitFactorizationModel.build_model rndU rndI rndB d.1 d.2 m.hyper.latent_dim
    RResult.ok (fitLoss step s0 num_partitions m.hyper.minibatch_size num_epochs interactions,
      ⟨m.hyper, some (upd md)⟩)

/-- Shape preservation of the engine's in-place SGD updates: the table
row counts never change (the collaborator writes entries, never resizes). -/
def ShapePreserving (upd : ModelData → ModelData) : Prop :=
  ∀ md : ModelData,
    (upd md).user_embedding.length = md.user_embedding.length ∧
    (upd md).item_embedding.length = md.item_embedding.length ∧
    (upd md).item_biases.length = md.item_biases.length

/-- The exact value of `std::f32::MIN`, the sentinel `mrr_score` writes over
train items: `-(2^128 - 2^104)`. -/
def FMIN : ℚ := -(2 ^ 128 - 2 ^ 104)

/-- Train-item suppression in `mrr_score`:
`predictions[train_idx] = std::f32::MIN` for every train-row item. -/
def suppress (predictions : List ℚ) (train_row : List Nat) : List ℚ :=
  train_row.foldl (fun p idx => p.set idx FMIN) predictions

/-- One pass of the rank loop body over the `ranks`/`test_scores` pair:
`if prediction >= score { *rank += 1 }`. -/
def bumpRanks (p : ℚ) (ranks : List Nat) (test_scores : List ℚ) : List Nat :=
  List.zipWith (fun r s => if s ≤ p then r + 1 else r) ranks test_scores

/-- The rank loop of `mrr_score`: ranks start at `0` and every prediction of
the (post-suppression) catalog bumps the rank of every test score it ties
or beats. -/
def computeRanks (predictions : List ℚ) (test_scores : List ℚ) : List Nat :=
  predictions.foldl (fun ranks p => bumpRanks p ranks test_scores)
    (test_scores.map fun _ => 0)

/-- Per-user body of `mrr_score` after a successful `predict`: suppress the
train row, gather the test scores, run the rank loop, and return the mean
reciprocal rank `sum(1/rank) / ranks.len()`. -/
def userScore (predictions : List ℚ) (test_row train_row : List Nat) : ℚ :=
  let preds := suppress predictions train_row
  let test_scores := test_row.map fun idx => preds.getD idx 0
  let ranks := computeRanks preds test_scores
  ((ranks.map fun r => (1 : ℚ) / ((r : Nat) : ℚ)).sum) / ((ranks.length : Nat) : ℚ)

/-- The `filter_map` over enumerated users of `mrr_score`: users with an
empty test row produce nothing; otherwise `model.predict(user_id).unwrap()`
panics (`none`) unless prediction succeeds.  `rayon`'s ordered `collect`
makes the parallel fan-out equivalent to this sequential walk. -/
def userScores (m : ImplicitFactorizationModel) :
    Nat → List (List Nat × List Nat) → Option (List ℚ)
  | _, [] => some []
  | u, pr :: rest =>
    if pr.1.isEmpty then userScores m (u + 1) rest
    else
      match m.predict u with
      | RResult.ok predictions =>
        match userScores m (u + 1) rest with
        | some tl => some (userScore predictions pr.1 pr.2 :: tl)
        | none => none
      | _ => none

/-- Function `mrr_score`: zip the test and train rows, collect the per-user
mean reciprocal ranks, and divide their sum by their count (`0.0 / 0.0 = NaN`
when no user has a test row). -/
def mrr_score (m : ImplicitFactorizationModel) (test train : InteractionMatrix) :
    Option F :=
  match userScores m 0 (test.rows.zip train.rows) with
  | some mrrs => some (F.div (F.val mrrs.sum) (F.val ((mrrs.length : Nat) : ℚ)))
  | none => none

/-- Specification-side rank (for the refinement claim about `mrr_score`):
the rank of a test item is the count of catalog items, post-suppression,
whose score is greater than or equal to that item's score — the item itself
included. -/
def rank_spec (scores : List ℚ) (s : ℚ) : Nat := (scores.filter fun p => s ≤ p).length

/-- Specification-side per-user score: the mean over the user's test items
of the reciprocal of `rank_spec` at each test item's (post-suppression)
score. -/
def userScore_spec (scores : List ℚ) (test_row : List Nat) : ℚ :=
  ((test_row.map fun i => (1 : ℚ) / ((rank_spec scores (scores.getD i 0) : Nat) : ℚ)).sum) /
    ((test_row.length : Nat) : ℚ)

/-- Specification-side qualifying users: the enumerated zipped rows whose
test row is non-empty (users without test interactions are excluded, not
counted as zero). -/
def qualifyingUsers (test train : InteractionMatrix) :
    List (Nat × (List Nat × List Nat)) :=
  ((test.rows.zip train.rows).enum).filter fun e => !e.2.1.isEmpty

/-- Closed stand-in for the engine collaborator, used to evaluate the
embedding on concrete inputs: every minibatch reports loss `1.0` and the
engine state is trivial. -/
def trivialStep : Nat → List UnweightedInteraction → Unit → F × Unit :=
  fun _ _ _ => (F.val 1, ())

/-- Trivial per-partition initial engine state for concrete evaluations. -/
def trivialState : Nat → Unit := fun _ => ()

/-- Closed stand-in for the random collaborator used in concrete
evaluations: every sampled table entry is `0`. -/
def zeroRnd : Nat → Nat → ℚ := fun _ _ => 0

/-- Concrete three-element interaction list used for evaluating the
partitioning of `fit` on explicit input. -/
def demoInteractions : List UnweightedInteraction := [⟨0, 0⟩, ⟨1, 1⟩, ⟨2, 2⟩]

/-! Helper lemmas about the `f32` model. -/

/-- NaN absorbs on the left of addition. -/
theorem F.add_nan_left (x : F) : F.add F.nan x = F.nan := by
  cases x <;> rfl

/-- NaN absorbs on the right of addition. -/
theorem F.add_nan_right (x : F) : F.add x F.nan = F.nan := by
  cases x <;> rfl

/-- A running `f32` sum that has become NaN stays NaN. -/
theorem F.foldl_add_nan : ∀ l : List F, l.foldl F.add F.nan = F.nan := by
  intro l
  induction l with
  | nil => rfl
  | cons x xs ih => rw [List.foldl_cons, F.add_nan_left]; exact ih

/-- Summing a nonempty all-NaN list yields NaN. -/
theorem F.sum_replicate_nan (n : Nat) (hn : 0 < n) :
    F.sum (List.replicate n F.nan) = F.nan := by
  obtain ⟨k, rfl⟩ := Nat.exists_eq_add_of_lt hn
  rw [Nat.zero_add, List.replicate_succ]
  unfold F.sum
  rw [List.foldl_cons, F.add_nan_right]
  exact F.foldl_add_nan _

/-! Helper lemmas about ordered insertion and the interaction matrix. -/

/-- Ordered insertion is idempotent. -/
theorem insertSorted_idem (x : Nat) : ∀ l : List Nat,
    insertSorted x (insertSorted x l) = insertSorted x l := by
  intro l
  induction l with
  | nil => simp [insertSorted]
  | cons y ys ih =>
    by_cases h1 : x < y
    · simp [insertSorted, h1]
    · by_cases h2 : x = y
      · simp [insertSorted, h1, h2]
      · simp [insertSorted, h1, h2, ih]

/-- Ordered insertions of `x` then `y` commute, strict case. -/
theorem insertSorted_comm_lt {x y : Nat} (hxy : x < y) : ∀ l : List Nat,
    insertSorted x (insertSorted y l) = insertSorted y (insertSorted x l) := by
  intro l
  induction l with
  | nil =>
    simp [insertSorted, hxy, Nat.not_lt.mpr (Nat.le_of_lt hxy), Nat.ne_of_gt hxy,
      Nat.ne_of_lt hxy]
  | cons z zs ih =>
    by_cases h1 : y < z
    · have hxz : x < z := Nat.lt_trans hxy h1
      simp [insertSorted, h1, hxz, hxy, Nat.not_lt.mpr (Nat.le_of_lt hxy), Nat.ne_of_gt hxy]
    · by_cases h2 : y = z
      · subst h2
        simp [insertSorted, h1, hxy, Nat.not_lt.mpr (Nat.le_of_lt hxy), Nat.ne_of_gt hxy,
          Nat.ne_of_lt hxy]
      · have h3 : z < y := by omega
        by_cases h4 : x < z
        · simp [insertSorted, h1, h2, h4, hxy, Nat.not_lt.mpr (Nat.le_of_lt hxy),
            Nat.ne_of_gt hxy]
        · by_cases h5 : x = z
          · subst h5
            simp [insertSorted, h1, h2, h4]
          · have h6 : z < x := by omega
            simp [insertSorted, h1, h2, h4, h5, ih]

/-- Ordered insertions commute. -/
theorem insertSorted_comm (x y : Nat) (l : List Nat) :
    insertSorted x (insertSorted y l) = insertSorted y (insertSorted x l) := by
  rcases Nat.lt_trichotomy x y with h | h | h
  · exact insertSorted_comm_lt h l
  · subst h; rfl
  · exact (insertSorted_comm_lt h l).symm

/-- Members of an insertion result are the inserted element or old members. -/
theorem mem_insertSorted {z x : Nat} : ∀ {l : List Nat},
    z ∈ insertSorted x l → z = x ∨ z ∈ l := by
  intro l
  induction l with
  | nil => simp [insertSorted]
  | cons y ys ih =>
    by_cases h1 : x < y
    · simp [insertSorted, h1]
    · by_cases h2 : x = y
      · simp [insertSorted, h1, h2]
      · simp only [insertSorted, if_neg h1, if_neg h2, List.mem_cons]
        rintro (rfl | hz)
        · tauto
        · rcases ih hz with h | h <;> tauto

/-- Ordered insertion preserves strict sortedness. -/
theorem insertSorted_sorted {x : Nat} : ∀ {l : List Nat},
    List.Sorted (· < ·) l → List.Sorted (· < ·) (insertSorted x l) := by
  intro l
  induction l with
  | nil => intro _; simp [insertSorted]
  | cons y ys ih =>
    intro hs
    rw [List.sorted_cons] at hs
    by_cases h1 : x < y
    · simp only [insertSorted, if_pos h1]
      rw [List.sorted_cons]
      constructor
      · intro b hb
        rcases List.mem_cons.mp hb with rfl | hb
        · exact h1
        · exact Nat.lt_trans h1 (hs.1 b hb)
      · rw [List.sorted_cons]; exact hs
    · by_cases h2 : x = y
      · simp only [insertSorted, if_neg h1, if_pos h2]
        rw [List.sorted_cons]; exact hs
      · have h3 : y < x := by omega
        simp only [insertSorted, if_neg h1, if_neg h2]
        rw [List.sorted_cons]
        refine ⟨?_, ih hs.2⟩
        intro b hb
        rcases mem_insertSorted hb with rfl | hb
        · exact h3
        · exact hs.1 b hb

/-- Matrix-level idempotence of `add`. -/
theorem matrix_add_idem (m : InteractionMatrix) (u i : Nat) :
    (m.add u i).add u i = m.add u i := by
  obtain ⟨nu, ni, rows⟩ := m
  simp only [InteractionMatrix.add, InteractionMatrix.mk.injEq, true_and]
  by_cases h : u < rows.length
  · have key : ∀ v : List Nat, ((rows.set u v).getD u []) = v := by
      intro v
      simp [List.getD, List.getElem?_set_self', h]
    rw [key, List.set_set, insertSorted_idem]
  · simp [List.set_eq_of_length_le, Nat.le_of_not_lt h]

/-- Matrix-level commutation of two `add` calls. -/
theorem matrix_add_comm (m : InteractionMatrix) (u1 i1 u2 i2 : Nat) :
    (m.add u1 i1).add u2 i2 = (m.add u2 i2).add u1 i1 := by
  obtain ⟨nu, ni, rows⟩ := m
  simp only [InteractionMatrix.add, InteractionMatrix.mk.injEq, true_and]
  by_cases hu : u1 = u2
  · subst hu
    by_cases h : u1 < rows.length
    · have key : ∀ v : List Nat, ((rows.set u1 v).getD u1 []) = v := by
        intro v
        simp [List.getD, List.getElem?_set_self', h]
      rw [key, key, List.set_set, List.set_set, insertSorted_comm]
    · simp [List.set_eq_of_length_le, Nat.le_of_not_lt h]
  · have g1 : (rows.set u1 (insertSorted i1 (rows.getD u1 []))).getD u2 [] = rows.getD u2 [] := by
      simp [List.getD, List.getElem?_set_ne hu]
    have g2 : (rows.set u2 (insertSorted i2 (rows.getD u2 []))).getD u1 [] = rows.getD u1 [] := by
      simp [List.getD, List.getElem?_set_ne (Ne.symm hu)]
    rw [g1, g2, List.set_comm _ _ _ hu]

/-- A left fold by a commuting operation is invariant under permutation. -/
theorem foldl_comm_perm {α β : Type} (f : β → α → β)
    (hc : ∀ b x y, f (f b x) y = f (f b y) x) :
    ∀ {l1 l2 : List α}, l1.Perm l2 → ∀ b, l1.foldl f b = l2.foldl f b := by
  intro l1 l2 hp
  induction hp with
  | nil => intro b; rfl
  | cons x _ ih => intro b; simp only [List.foldl_cons]; exact ih _
  | swap x y l => intro b; simp only [List.foldl_cons]; rw [hc]
  | trans _ _ ih1 ih2 => intro b; rw [ih1 b, ih2 b]

/-- All rows produced by folding `add` from an empty matrix are strictly
sorted. -/
theorem rows_sorted_foldl (nu ni : Nat) (pairs : List UnweightedInteraction) :
    ∀ r ∈ (pairs.foldl (fun m e => m.add e.user_id e.item_id)
      (InteractionMatrix.new nu ni)).rows, List.Sorted (· < ·) r := by
  suffices h : ∀ (pairs : List UnweightedInteraction) (m : InteractionMatrix),
      (∀ r ∈ m.rows, List.Sorted (· < ·) r) →
      ∀ r ∈ (pairs.foldl (fun m e => m.add e.user_id e.item_id) m).rows,
        List.Sorted (· < ·) r by
    refine h pairs _ ?_
    intro r hr
    rw [List.eq_of_mem_replicate hr]
    exact List.sorted_nil
  intro pairs
  induction pairs with
  | nil => intro m hm; exact hm
  | cons e rest ih =>
    intro m hm
    simp only [List.foldl_cons]
    refine ih _ ?_
    intro r hr
    rcases List.mem_or_eq_of_mem_set hr with h | h
    · exact hm r h
    · subst h
      refine insertSorted_sorted ?_
      by_cases hb : e.user_id < m.rows.length
      · refine hm _ ?_
        rw [List.getD_eq_getElem _ _ hb]
        exact List.getElem_mem hb
      · rw [List.getD_eq_default _ _ (Nat.le_of_not_lt hb)]
        exact List.sorted_nil

/-- C9: `InteractionMatrix.add` is idempotent; every row produced by any
sequence of insertions starting from an empty matrix is strictly sorted
(hence ascending and duplicate-free); and `from_interactions` is
insertion-order-independent: permuting the input yields an identical
matrix. -/
theorem interaction_matrix_add_algebra :
    (∀ (m : InteractionMatrix) (u i : Nat), (m.add u i).add u i = m.add u i) ∧
    (∀ (nu ni : Nat) (pairs : List UnweightedInteraction) (r : List Nat),
      r ∈ (pairs.foldl (fun m e => m.add e.user_id e.item_id)
        (InteractionMatrix.new nu ni)).rows →
      List.Sorted (· < ·) r ∧ r.Nodup) ∧
    (∀ (nu ni : Nat) (l1 l2 : List UnweightedInteraction), l1.Perm l2 →
      InteractionMatrix.from_interactions nu ni l1 =
        InteractionMatrix.from_interactions nu ni l2) := by
  refine ⟨matrix_add_idem, ?_, ?_⟩
  · intro nu ni pairs r hr
    exact ⟨rows_sorted_foldl nu ni pairs r hr, (rows_sorted_foldl nu ni pairs r hr).nodup⟩
  · intro nu ni l1 l2 hp
    exact foldl_comm_perm _
      (fun m x y => matrix_add_comm m x.user_id x.item_id y.user_id y.item_id) hp _

/-- Witness for C9 at concrete inputs: double insertion of `(0, 2)` into a
fresh `2 × 3` matrix equals single insertion; the row `[1, 2]` built by the
insertions `(0, 2), (0, 1)` is sorted and duplicate-free; and swapping the
two interactions of a concrete input leaves `from_interactions` unchanged. -/
theorem interaction_matrix_add_algebra_applied :
    ((InteractionMatrix.new 2 3).add 0 2).add 0 2 = (InteractionMatrix.new 2 3).add 0 2 ∧
    (List.Sorted (· < ·) [1, 2] ∧ ([1, 2] : List Nat).Nodup) ∧
    InteractionMatrix.from_interactions 2 3 [⟨0, 1⟩, ⟨1, 2⟩] =
      InteractionMatrix.from_interactions 2 3 [⟨1, 2⟩, ⟨0, 1⟩] :=
  ⟨interaction_matrix_add_algebra.1 (InteractionMatrix.new 2 3) 0 2,
   interaction_matrix_add_algebra.2.1 2 3 [⟨0, 2⟩, ⟨0, 1⟩] [1, 2] (by decide),
   interaction_matrix_add_algebra.2.2 2 3 [⟨0, 1⟩, ⟨1, 2⟩] [⟨1, 2⟩, ⟨0, 1⟩] (by decide)⟩

/-! Helper lemmas for the partitioned training loop of `fit`. -/

/-- Chunking the empty slice yields no chunks. -/
theorem chunksOf_nil {α : Type} (mb : Nat) : chunksOf mb ([] : List α) = [] := by
  unfold chunksOf
  split <;> rfl

/-- An epoch loop over an empty shard accumulates no loss and leaves the
engine state untouched. -/
theorem runEpochs_nil {σ : Type} (step : List UnweightedInteraction → σ → F × σ)
    (mb epochs : Nat) (s0 : σ) :
    runEpochs step mb epochs [] s0 = (F.val 0, s0) := by
  unfold runEpochs
  rw [chunksOf_nil]
  have key : ∀ (L : List Nat) (acc : F × σ),
      L.foldl (fun acc _ => processChunks step mb [] acc) acc = acc := by
    intro L
    induction L with
    | nil => intro acc; rfl
    | cons x xs ih => intro acc; rw [List.foldl_cons]; exact ih acc
  exact key _ _

/-- A zero-size shard divides a zero running total by a zero count:
`0.0 / 0.0 = NaN`. -/
theorem shardLoss_nil {σ : Type} (step : List UnweightedInteraction → σ → F × σ)
    (mb epochs : Nat) (s0 : σ) :
    shardLoss step mb epochs [] s0 = F.nan := by
  unfold shardLoss
  rw [runEpochs_nil]
  norm_num [F.div]

/-- Contiguous equal-size slices concatenate to the truncated prefix. -/
theorem slices_flatten {α : Type} (cs : Nat) :
    ∀ (P : Nat) (l : List α),
      ((List.range P).map fun k => (l.drop (k * cs)).take cs).flatten = l.take (P * cs) := by
  intro P
  induction P with
  | zero => intro l; simp
  | succ n ih =>
    intro l
    rw [List.range_succ, List.map_append, List.flatten_append]
    simp only [List.map_cons, List.map_nil, List.flatten_cons, List.flatten_nil,
      List.append_nil]
    rw [ih, Nat.succ_mul, List.take_add]

/-- Every one of the first `P` slices of width `len / P` has exactly that
many elements. -/
theorem slice_length {α : Type} (l : List α) (P k : Nat) (hk : k < P) :
    ((l.drop (k * (l.length / P))).take (l.length / P)).length = l.length / P := by
  have h1 : (k + 1) * (l.length / P) ≤ P * (l.length / P) :=
    Nat.mul_le_mul_right _ hk
  have h2 : P * (l.length / P) ≤ l.length := by
    rw [Nat.mul_comm]; exact Nat.div_mul_le_self _ _
  have h3 : k * (l.length / P) + l.length / P ≤ l.length := by
    have h4 : k * (l.length / P) + l.length / P = (k + 1) * (l.length / P) := by ring
    omega
  simp only [List.length_take, List.length_drop]
  omega

/-- C1: `fit` partitions the interaction sequence into `P` contiguous
shards, each of size `len / P` exactly (`P` the number of worker threads),
their concatenation is the input truncated at `P * (len / P)` (the
remainder is dropped), and the returned loss is the arithmetic sum — not
the mean — of the per-shard loss results. -/
theorem fit_partitions_and_sums {σ : Type}
    (step : Nat → List UnweightedInteraction → σ → F × σ) (s0 : Nat → σ)
    (P mb epochs : Nat) (l : List UnweightedInteraction) :
    ((List.range P).map fun k =>
      (l.drop (k * (l.length / P))).take (l.length / P)).length = P ∧
    (∀ s ∈ (List.range P).map fun k =>
      (l.drop (k * (l.length / P))).take (l.length / P), s.length = l.length / P) ∧
    ((List.range P).map fun k =>
      (l.drop (k * (l.length / P))).take (l.length / P)).flatten
      = l.take (P * (l.length / P)) ∧
    fitLoss step s0 P mb epochs l =
      F.sum ((List.range P).map fun k =>
        shardLoss (step k) mb epochs
          ((l.drop (k * (l.length / P))).take (l.length / P)) (s0 k)) := by
  refine ⟨by simp, ?_, slices_flatten (l.length / P) P l, rfl⟩
  intro s hs
  simp only [List.mem_map, List.mem_range] at hs
  obtain ⟨k, hk, rfl⟩ := hs
  exact slice_length l P k hk

/-- Witness for C1 on a concrete three-interaction input split over two
workers: two shards of size one each, concatenating to the first two
elements (the third is dropped), and the loss equal to the sum of the two
shard results. -/
theorem fit_partitions_and_sums_applied :
    ((List.range 2).map fun k =>
      (demoInteractions.drop (k * (demoInteractions.length / 2))).take
        (demoInteractions.length / 2)).length = 2 ∧
    ([⟨1, 1⟩] : List UnweightedInteraction).length = demoInteractions.length / 2 ∧
    ((List.range 2).map fun k =>
      (demoInteractions.drop (k * (demoInteractions.length / 2))).take
        (demoInteractions.length / 2)).flatten
      = demoInteractions.take (2 * (demoInteractions.length / 2)) ∧
    fitLoss trivialStep trivialState 2 1 1 demoInteractions =
      F.sum ((List.range 2).map fun k =>
        shardLoss (trivialStep k) 1 1
          ((demoInteractions.drop (k * (demoInteractions.length / 2))).take
            (demoInteractions.length / 2)) (trivialState k)) := by
  have h := fit_partitions_and_sums trivialStep trivialState 2 1 1 demoInteractions
  exact ⟨h.1, h.2.1 [⟨1, 1⟩] (by decide), h.2.2.1, h.2.2.2⟩

/-- Counterexample to C4 at a concrete input: with one interaction and two
worker threads, every shard has size `1 / 2 = 0`, and `fit`'s loss is NaN
(the zero-sized shards are not excluded from the aggregate; each computes
`0.0 / 0.0`). -/
theorem fit_zero_size_shard_nan_example :
    (([⟨0, 0⟩] : List UnweightedInteraction).length / 2 = 0) ∧
    fitLoss trivialStep trivialState 2 1 1 [⟨0, 0⟩] = F.nan := by
  constructor
  · rfl
  · decide

/-- Amended C4: whenever the interaction count is smaller than the number
of worker threads, the shard size `len / P` is zero, every shard computes
`0.0 / 0.0 = NaN`, and the loss returned by `fit` is NaN — zero-sized
shards are not excluded from the aggregate. -/
theorem fit_zero_size_shards_nan {σ : Type}
    (step : Nat → List UnweightedInteraction → σ → F × σ) (s0 : Nat → σ)
    (P mb epochs : Nat) (l : List UnweightedInteraction)
    (hP : 0 < P) (hlen : l.length < P) :
    l.length / P = 0 ∧ fitLoss step s0 P mb epochs l = F.nan := by
  have hcs : l.length / P = 0 := Nat.div_eq_of_lt hlen
  refine ⟨hcs, ?_⟩
  unfold fitLoss
  rw [hcs]
  have hmap : ∀ k ∈ List.range P,
      shardLoss (step k) mb epochs ((l.drop (k * 0)).take 0) (s0 k) = F.nan := by
    intro k _
    rw [List.take_zero]
    exact shardLoss_nil _ _ _ _
  rw [List.map_congr_left hmap, List.map_const', List.length_range]
  exact F.sum_replicate_nan P hP

/-- Witness for the amended C4 on a concrete input: two interactions over
three workers give shard size zero and a NaN loss. -/
theorem fit_zero_size_shards_nan_applied :
    ([⟨0, 0⟩, ⟨1, 1⟩] : List UnweightedInteraction).length / 3 = 0 ∧
    fitLoss trivialStep trivialState 3 2 2 [⟨0, 0⟩, ⟨1, 1⟩] = F.nan :=
  fit_zero_size_shards_nan trivialStep trivialState 3 2 2 [⟨0, 0⟩, ⟨1, 1⟩]
    (by decide) (by decide)

/-- Amended C5: `fit` called with an empty interaction sequence panics
inside `get_dimensions` (`unwrap` of `None` from `max()` on an empty
iterator) instead of returning a declared error. -/
theorem fit_empty_input_panics {σ : Type}
    (step : Nat → List UnweightedInteraction → σ → F × σ) (s0 : Nat → σ)
    (rndU rndI rndB : Nat → Nat → ℚ) (upd : ModelData → ModelData)
    (P : Nat) (m : ImplicitFactorizationModel) (epochs : Nat) :
    ImplicitFactorizationModel.fit step s0 rndU rndI rndB upd P m [] epochs =
      RResult.panicked := rfl

/-- Counterexample to C5 at a concrete input: `fit` of a fresh
default-hyperparameter model on the empty interaction sequence panics; it
does not return a declared error value. -/
theorem fit_empty_input_panics_example :
    ImplicitFactorizationModel.fit trivialStep trivialState zeroRnd zeroRnd zeroRnd
      id 4 ⟨HyperparametersBuilder.defaults, none⟩ [] 1 = RResult.panicked ∧
    (RResult.panicked : RResult (F × ImplicitFactorizationModel)) ≠
      RResult.err RErr.notFitted := by
  constructor
  · rfl
  · decide

/-! Helper lemmas for prediction and model construction. -/

/-- An initialized table has exactly `rows` rows. -/
theorem embedding_init_length (rnd : Nat → Nat → ℚ) (rows cols : Nat) :
    (embedding_init rnd rows cols).length = rows := by
  simp [embedding_init]

/-- The flattened `n × 1` bias table has exactly `n` entries. -/
theorem embedding_init_flatten_length (rnd : Nat → Nat → ℚ) (n : Nat) :
    ((embedding_init rnd n 1).flatten).length = n := by
  rw [List.length_flatten]
  unfold embedding_init
  rw [List.map_map]
  have key : (List.length ∘ fun r => List.map (fun c => rnd r c) (List.range 1)) =
      fun _ => 1 := by
    funext r
    simp
  rw [key]
  simp [List.map_const', List.sum_replicate]

/-- The prediction vector has one entry per zipped item row. -/
theorem predictScores_length (md : ModelData) (u : Nat) :
    (predictScores md u).length = min md.item_embedding.length md.item_biases.length := by
  simp [predictScores, List.length_zip]

/-- Entrywise view of a mapped zip at an in-bounds index. -/
theorem getD_map_zip {α β γ : Type} (f : α × β → γ) :
    ∀ (A : List α) (B : List β) (i : Nat) (dA : α) (dB : β) (dC : γ),
      i < A.length → i < B.length →
      (((A.zip B).map f).getD i dC) = f (A.getD i dA, B.getD i dB) := by
  intro A
  induction A with
  | nil =>
    intro B i dA dB dC hA _
    simp at hA
  | cons a as ih =>
    intro B i dA dB dC hA hB
    cases B with
    | nil => simp at hB
    | cons b bs =>
      cases i with
      | zero => rfl
      | succ n =>
        simp only [List.zip_cons_cons, List.map_cons, List.getD_cons_succ]
        exact ih bs n dA dB dC (by simpa using hA) (by simpa using hB)

/-- A fitted model with an in-bounds user id predicts successfully. -/
theorem predict_fitted (hyper : Hyperparameters) (md : ModelData) (u : Nat)
    (h : u < md.user_embedding.length) :
    ImplicitFactorizationModel.predict ⟨hyper, some md⟩ u =
      RResult.ok (predictScores md u) := by
  simp [ImplicitFactorizationModel.predict, h]

/-- C2: on a fitted model with consistently sized tables and an in-bounds
user id, `predict` succeeds, returns a dense vector of length `num_items`,
and its entry `i` equals `item_biases[i] + dot(user_embedding[user_id],
item_embedding[i])`.  The call is a pure function of the model: the
embedding's `predict` takes the tables by value and returns only the
score vector, so no parameter table changes. -/
theorem predict_formula (hyper : Hyperparameters) (md : ModelData) (u i : Nat)
    (hnu : md.user_embedding.length = md.num_users)
    (hu : u < md.num_users)
    (hie : md.item_embedding.length = md.num_items)
    (hib : md.item_biases.length = md.num_items)
    (hi : i < md.num_items) :
    ImplicitFactorizationModel.predict ⟨hyper, some md⟩ u =
      RResult.ok (predictScores md u) ∧
    (predictScores md u).length = md.num_items ∧
    (predictScores md u).getD i 0 =
      md.item_biases.getD i 0 +
        dot (md.user_embedding.getD u []) (md.item_embedding.getD i []) := by
  refine ⟨predict_fitted hyper md u (by omega), ?_, ?_⟩
  · rw [predictScores_length, hie, hib, Nat.min_self]
  · unfold predictScores
    rw [getD_map_zip _ md.item_embedding md.item_biases i [] 0 0 (by omega) (by omega)]

/-- Witness for C2 on a concrete fitted model (two users, three items,
latent dimension one): user `0` and item `1` satisfy the score formula. -/
theorem predict_formula_applied :
    ImplicitFactorizationModel.predict
      ⟨HyperparametersBuilder.defaults,
        some ⟨2, 3, [[1], [0]], [[1], [2], [3]], [5, 6, 7]⟩⟩ 0 =
      RResult.ok (predictScores ⟨2, 3, [[1], [0]], [[1], [2], [3]], [5, 6, 7]⟩ 0) ∧
    (predictScores ⟨2, 3, [[1], [0]], [[1], [2], [3]], [5, 6, 7]⟩ 0).length = 3 ∧
    (predictScores ⟨2, 3, [[1], [0]], [[1], [2], [3]], [5, 6, 7]⟩ 0).getD 1 0 =
      ([5, 6, 7] : List ℚ).getD 1 0 +
        dot (([[1], [0]] : List (List ℚ)).getD 0 [])
          (([[1], [2], [3]] : List (List ℚ)).getD 1 []) :=
  predict_formula HyperparametersBuilder.defaults
    ⟨2, 3, [[1], [0]], [[1], [2], [3]], [5, 6, 7]⟩ 0 1
    (by decide) (by decide) (by decide) (by decide) (by decide)

/-- C8 (failing input): on a model fitted with two users, `predict(5)`
panics through the out-of-bounds `subview` of the user-embedding table;
no declared error value is returned to the caller. -/
theorem predict_out_of_bounds_panics :
    ImplicitFactorizationModel.predict
      ⟨HyperparametersBuilder.defaults,
        some ⟨2, 3, [[1], [0]], [[1], [2], [3]], [0, 0, 0]⟩⟩ 5 = RResult.panicked ∧
    (RResult.panicked : RResult (List ℚ)) ≠ RResult.err RErr.notFitted := by
  constructor
  · rfl
  · decide

/-- C7: `predict` on a model with no prior successful `fit` returns the
NotFitted error for every user id; after a successful first `fit` (which
allocates the tables at the discovered dimensions, then lets the engine
update entries in place without resizing), `predict` on any valid user id
returns a vector with exactly `num_items` entries. -/
theorem predict_unfitted_and_fit_dimensions :
    (∀ (hyper : Hyperparameters) (u : Nat),
      ImplicitFactorizationModel.predict ⟨hyper, none⟩ u = RResult.err RErr.notFitted) ∧
    (∀ (σ : Type) (step : Nat → List UnweightedInteraction → σ → F × σ) (s0 : Nat → σ)
      (rndU rndI rndB : Nat → Nat → ℚ) (upd : ModelData → ModelData) (P : Nat)
      (hyper : Hyperparameters) (l : List UnweightedInteraction) (epochs nu ni : Nat),
      ShapePreserving upd → get_dimensions l = some (nu, ni) →
      ImplicitFactorizationModel.fit step s0 rndU rndI rndB upd P ⟨hyper, none⟩ l epochs =
        RResult.ok (fitLoss step s0 P hyper.minibatch_size epochs l,
          ⟨hyper, some (upd (ImplicitFactorizationModel.build_model rndU rndI rndB nu ni
            hyper.latent_dim))⟩) ∧
      ∀ u : Nat, u < nu →
        ImplicitFactorizationModel.predict
          ⟨hyper, some (upd (ImplicitFactorizationModel.build_model rndU rndI rndB nu ni
            hyper.latent_dim))⟩ u =
          RResult.ok (predictScores
            (upd (ImplicitFactorizationModel.build_model rndU rndI rndB nu ni
              hyper.latent_dim)) u) ∧
        (predictScores (upd (ImplicitFactorizationModel.build_model rndU rndI rndB nu ni
          hyper.latent_dim)) u).length = ni) := by
  constructor
  · intro hyper u
    rfl
  · intro σ step s0 rndU rndI rndB upd P hyper l epochs nu ni hshape hdim
    obtain ⟨h1, h2, h3⟩ :=
      hshape (ImplicitFactorizationModel.build_model rndU rndI rndB nu ni hyper.latent_dim)
    have hue : (ImplicitFactorizationModel.build_model rndU rndI rndB nu ni
        hyper.latent_dim).user_embedding.length = nu := by
      simp [ImplicitFactorizationModel.build_model, embedding_init_length]
    have hie : (ImplicitFactorizationModel.build_model rndU rndI rndB nu ni
        hyper.latent_dim).item_embedding.length = ni := by
      simp [ImplicitFactorizationModel.build_model, embedding_init_length]
    have hib : (ImplicitFactorizationModel.build_model rndU rndI rndB nu ni
        hyper.latent_dim).item_biases.length = ni := by
      show ((embedding_init rndB ni 1).flatten).length = ni
      exact embedding_init_flatten_length rndB ni
    constructor
    · unfold ImplicitFactorizationModel.fit
      rw [hdim]
    · intro u hu
      constructor
      · exact predict_fitted hyper _ u (by rw [h1, hue]; omega)
      · rw [predictScores_length, h2, h3, hie, hib, Nat.min_self]

/-- Witness for C7: the NotFitted error on a concrete fresh model, and a
first `fit` on one interaction (one user, one item) after which user `0`
receives a one-entry score vector. -/
theorem predict_unfitted_and_fit_dimensions_applied :
    ImplicitFactorizationModel.predict ⟨HyperparametersBuilder.defaults, none⟩ 7 =
      RResult.err RErr.notFitted ∧
    ImplicitFactorizationModel.fit trivialStep trivialState zeroRnd zeroRnd zeroRnd id 2
      ⟨HyperparametersBuilder.defaults, none⟩ [⟨0, 0⟩] 1 =
      RResult.ok
        (fitLoss trivialStep trivialState 2 HyperparametersBuilder.defaults.minibatch_size 1
          [⟨0, 0⟩],
        ⟨HyperparametersBuilder.defaults,
          some (id (ImplicitFactorizationModel.build_model zeroRnd zeroRnd zeroRnd 1 1
            HyperparametersBuilder.defaults.latent_dim))⟩) ∧
    ImplicitFactorizationModel.predict
      ⟨HyperparametersBuilder.defaults,
        some (id (ImplicitFactorizationModel.build_model zeroRnd zeroRnd zeroRnd 1 1
          HyperparametersBuilder.defaults.latent_dim))⟩ 0 =
      RResult.ok (predictScores
        (id (ImplicitFactorizationModel.build_model zeroRnd zeroRnd zeroRnd 1 1
          HyperparametersBuilder.defaults.latent_dim)) 0) ∧
    (predictScores (id (ImplicitFactorizationModel.build_model zeroRnd zeroRnd zeroRnd 1 1
      HyperparametersBuilder.defaults.latent_dim)) 0).length = 1 := by
  have h := predict_unfitted_and_fit_dimensions.2 Unit trivialStep trivialState zeroRnd
    zeroRnd zeroRnd id 2 HyperparametersBuilder.defaults [⟨0, 0⟩] 1 1 1
    (fun _ => ⟨rfl, rfl, rfl⟩) (by decide)
  exact ⟨predict_unfitted_and_fit_dimensions.1 HyperparametersBuilder.defaults 7,
    h.1, (h.2 0 (by decide)).1, (h.2 0 (by decide)).2⟩

/-! Helper lemmas for the MRR evaluator. -/

/-- Two zips over the same right list compose pointwise. -/
theorem zipWith_zipWith_same {α β γ δ : Type} (f : γ → β → δ) (g : α → β → γ) :
    ∀ (l1 : List α) (l2 : List β),
      List.zipWith f (List.zipWith g l1 l2) l2 =
        List.zipWith (fun a b => f (g a b) b) l1 l2 := by
  intro l1
  induction l1 with
  | nil => intro l2; rfl
  | cons a as ih =>
    intro l2
    cases l2 with
    | nil => rfl
    | cons b bs => simp only [List.zipWith_cons_cons, ih]

/-- Pointwise equal functions zip equally. -/
theorem zipWith_congr_fun {α β γ : Type} (f g : α → β → γ)
    (h : ∀ a b, f a b = g a b) :
    ∀ (l1 : List α) (l2 : List β), List.zipWith f l1 l2 = List.zipWith g l1 l2 := by
  intro l1
  induction l1 with
  | nil => intro l2; rfl
  | cons a as ih =>
    intro l2
    cases l2 with
    | nil => rfl
    | cons b bs => simp only [List.zipWith_cons_cons, h, ih]

/-- Zipping with left projection recovers the left list when it is no
longer than the right one. -/
theorem zipWith_fst {α β : Type} :
    ∀ (l1 : List α) (l2 : List β), l1.length ≤ l2.length →
      List.zipWith (fun a _ => a) l1 l2 = l1 := by
  intro l1
  induction l1 with
  | nil => intro l2 _; rfl
  | cons a as ih =>
    intro l2 h
    cases l2 with
    | nil => simp at h
    | cons b bs =>
      simp only [List.zipWith_cons_cons]
      rw [ih bs (by simpa using h)]

/-- The rank of a score against `p :: ps` splits off the head comparison. -/
theorem rank_spec_cons (p : ℚ) (ps : List ℚ) (s : ℚ) :
    rank_spec (p :: ps) s = (if s ≤ p then 1 else 0) + rank_spec ps s := by
  by_cases h : s ≤ p <;> simp [rank_spec, List.filter_cons, h] <;> omega

/-- The imperative rank loop computes, for every test score, the count of
catalog predictions that tie or beat it. -/
theorem foldl_bumpRanks :
    ∀ (preds : List ℚ) (rs : List Nat) (ss : List ℚ), rs.length = ss.length →
      preds.foldl (fun ranks p => bumpRanks p ranks ss) rs =
        List.zipWith (fun r s => r + rank_spec preds s) rs ss := by
  intro preds
  induction preds with
  | nil =>
    intro rs ss h
    rw [List.foldl_nil]
    have key : List.zipWith (fun (r : Nat) (s : ℚ) => r + rank_spec [] s) rs ss =
        List.zipWith (fun r _ => r) rs ss :=
      zipWith_congr_fun _ _ (fun a b => by simp [rank_spec]) rs ss
    rw [key, zipWith_fst rs ss (Nat.le_of_eq h)]
  | cons p ps ih =>
    intro rs ss h
    rw [List.foldl_cons]
    have hlen : (bumpRanks p rs ss).length = ss.length := by
      simp [bumpRanks, List.length_zipWith]
      omega
    rw [ih (bumpRanks p rs ss) ss hlen]
    unfold bumpRanks
    rw [zipWith_zipWith_same]
    refine zipWith_congr_fun _ _ ?_ rs ss
    intro a b
    rw [rank_spec_cons]
    by_cases hc : b ≤ p <;> simp [hc] <;> omega

/-- The rank vector of the evaluator equals the specification ranks. -/
theorem computeRanks_eq (preds : List ℚ) (ss : List ℚ) :
    computeRanks preds ss = ss.map fun s => rank_spec preds s := by
  unfold computeRanks
  rw [foldl_bumpRanks preds _ ss (by simp)]
  induction ss with
  | nil => rfl
  | cons s ss ih => simp only [List.map_cons, List.zipWith_cons_cons, ih, Nat.zero_add]

/-- The per-user body of the evaluator equals the specification score of
the suppressed prediction vector. -/
theorem userScore_eq (predictions : List ℚ) (test_row train_row : List Nat) :
    userScore predictions test_row train_row =
      userScore_spec (suppress predictions train_row) test_row := by
  simp only [userScore, userScore_spec, computeRanks_eq, List.map_map,
    List.length_map, Function.comp]
  rfl

/-- On a fitted model whose user-embedding table covers every zipped user,
the evaluator's `filter_map` produces exactly the per-user scores of the
qualifying (non-empty test row) users, in order. -/
theorem userScores_eq (hyper : Hyperparameters) (md : ModelData) :
    ∀ (pairs : List (List Nat × List Nat)) (u : Nat),
      u + pairs.length ≤ md.user_embedding.length →
      userScores ⟨hyper, some md⟩ u pairs =
        some (((List.enumFrom u pairs).filter fun e => !e.2.1.isEmpty).map
          fun e => userScore (predictScores md e.1) e.2.1 e.2.2) := by
  intro pairs
  induction pairs with
  | nil => intro u _; rfl
  | cons pr rest ih =>
    intro u hu
    have hrec := ih (u + 1) (by simp only [List.length_cons] at hu; omega)
    have henum : List.enumFrom u (pr :: rest) = (u, pr) :: List.enumFrom (u + 1) rest := rfl
    by_cases he : pr.1.isEmpty
    · simp only [userScores, if_pos he, hrec, henum, List.filter_cons, he,
        Bool.not_true]
      rfl
    · have hlt : u < md.user_embedding.length := by
        simp only [List.length_cons] at hu; omega
      simp only [userScores, if_neg he, predict_fitted hyper md u hlt, hrec, henum,
        List.filter_cons]
      have hd : (!pr.1.isEmpty) = true := by
        simp [he]
      simp [hd]

/-- C3: on a fitted model covering every zipped user, `mrr_score` equals the
specification: users with an empty test row are excluded from the average
(not counted as zero); each remaining user's score is the mean over test
items of the reciprocal of the rank, the rank being the count of catalog
items, post-suppression of the train row to the `f32::MIN` sentinel, whose
score ties or beats the test item's own score (itself included); and the
result is the arithmetic mean of the per-user scores. -/
theorem mrr_score_matches_spec (hyper : Hyperparameters) (md : ModelData)
    (test train : InteractionMatrix)
    (hlen : (test.rows.zip train.rows).length ≤ md.user_embedding.length) :
    mrr_score ⟨hyper, some md⟩ test train =
      some (F.div
        (F.val (((qualifyingUsers test train).map fun e =>
          userScore_spec (suppress (predictScores md e.1) e.2.2) e.2.1).sum))
        (F.val (((qualifyingUsers test train).length : Nat) : ℚ))) := by
  unfold mrr_score
  rw [userScores_eq hyper md (test.rows.zip train.rows) 0 (by omega)]
  have hmap : ((qualifyingUsers test train).map fun e =>
      userScore (predictScores md e.1) e.2.1 e.2.2) =
      ((qualifyingUsers test train).map fun e =>
        userScore_spec (suppress (predictScores md e.1) e.2.2) e.2.1) :=
    List.map_congr_left fun e _ => userScore_eq (predictScores md e.1) e.2.1 e.2.2
  show some (F.div
      (F.val (((qualifyingUsers test train).map fun e =>
        userScore (predictScores md e.1) e.2.1 e.2.2).sum))
      (F.val ((((qualifyingUsers test train).map fun e =>
        userScore (predictScores md e.1) e.2.1 e.2.2).length : Nat) : ℚ))) = _
  rw [hmap]
  simp [List.length_map]

/-- Witness for C3 on a concrete fitted model (two users, three items) and
one test and one train interaction for user 0. -/
theorem mrr_score_matches_spec_applied :
    mrr_score ⟨HyperparametersBuilder.defaults,
        some ⟨2, 3, [[1], [2]], [[1], [0], [2]], [0, 0, 0]⟩⟩
      (InteractionMatrix.from_interactions 2 3 [⟨0, 0⟩])
      (InteractionMatrix.from_interactions 2 3 [⟨0, 1⟩]) =
      some (F.div
        (F.val (((qualifyingUsers (InteractionMatrix.from_interactions 2 3 [⟨0, 0⟩])
            (InteractionMatrix.from_interactions 2 3 [⟨0, 1⟩])).map fun e =>
          userScore_spec
            (suppress (predictScores ⟨2, 3, [[1], [2]], [[1], [0], [2]], [0, 0, 0]⟩ e.1)
              e.2.2) e.2.1).sum))
        (F.val (((qualifyingUsers (InteractionMatrix.from_interactions 2 3 [⟨0, 0⟩])
            (InteractionMatrix.from_interactions 2 3 [⟨0, 1⟩])).length : Nat) : ℚ))) :=
  mrr_score_matches_spec HyperparametersBuilder.defaults
    ⟨2, 3, [[1], [2]], [[1], [0], [2]], [0, 0, 0]⟩
    (InteractionMatrix.from_interactions 2 3 [⟨0, 0⟩])
    (InteractionMatrix.from_interactions 2 3 [⟨0, 1⟩]) (by decide)

/-- On an unfitted model, the first zipped user with a non-empty test row
makes `predict(user_id).unwrap()` panic, so the evaluator panics. -/
theorem userScores_unfitted_none (m : ImplicitFactorizationModel)
    (hm : m.model = none) :
    ∀ (pairs : List (List Nat × List Nat)) (u : Nat),
      (∃ e ∈ pairs, e.1 ≠ []) → userScores m u pairs = none := by
  intro pairs
  induction pairs with
  | nil =>
    intro u h
    obtain ⟨e, he, _⟩ := h
    simp at he
  | cons pr rest ih =>
    intro u h
    by_cases he : pr.1.isEmpty
    · have hpr : pr.1 = [] := List.isEmpty_iff.mp he
      simp only [userScores, if_pos he]
      apply ih
      obtain ⟨e, hmem, hne⟩ := h
      rcases List.mem_cons.mp hmem with rfl | hmem
      · exact absurd hpr hne
      · exact ⟨e, hmem, hne⟩
    · have hp : m.predict u = RResult.err RErr.notFitted := by
        unfold ImplicitFactorizationModel.predict
        rw [hm]
      simp only [userScores, if_neg he, hp]

/-- Amended C6: `mrr_score` on a model that has never been fitted panics
(at the `unwrap` of `predict`'s NotFitted error) as soon as some zipped
user has a non-empty test row; it does not execute without error. -/
theorem mrr_unfitted_panics (m : ImplicitFactorizationModel)
    (test train : InteractionMatrix) (hm : m.model = none)
    (h : ∃ e ∈ test.rows.zip train.rows, e.1 ≠ []) :
    mrr_score m test train = none := by
  unfold mrr_score
  rw [userScores_unfitted_none m hm (test.rows.zip train.rows) 0 h]

/-- Counterexample to C6 at the claim's own concrete scenario (4 users,
5 items, train `(0,0),(0,1),(1,2)`, test `(0,2),(1,0)`): on a never-fitted
model, `mrr_score` panics — it does not execute without error, and returns
no value at all. -/
theorem mrr_unfitted_scenario_panics :
    mrr_score ⟨HyperparametersBuilder.defaults, none⟩
      (InteractionMatrix.from_interactions 4 5 [⟨0, 2⟩, ⟨1, 0⟩])
      (InteractionMatrix.from_interactions 4 5 [⟨0, 0⟩, ⟨0, 1⟩, ⟨1, 2⟩]) = none := by
  decide

/-- Witness for the amended C6 on a distinct concrete input: one test
interaction for user 0 and one train interaction for user 1. -/
theorem mrr_unfitted_panics_applied :
    mrr_score ⟨HyperparametersBuilder.defaults, none⟩
      (InteractionMatrix.from_interactions 2 2 [⟨0, 1⟩])
      (InteractionMatrix.from_interactions 2 2 [⟨1, 0⟩]) = none :=
  mrr_unfitted_panics ⟨HyperparametersBuilder.defaults, none⟩
    (InteractionMatrix.from_interactions 2 2 [⟨0, 1⟩])
    (InteractionMatrix.from_interactions 2 2 [⟨1, 0⟩]) rfl
    ⟨([1], []), by decide, by decide⟩

/-- When every zipped user has an empty test row, the evaluator collects
no per-user score at all. -/
theorem userScores_all_empty (m : ImplicitFactorizationModel) :
    ∀ (pairs : List (List Nat × List Nat)) (u : Nat),
      (∀ e ∈ pairs, e.1 = []) → userScores m u pairs = some [] := by
  intro pairs
  induction pairs with
  | nil => intro u _; rfl
  | cons pr rest ih =>
    intro u h
    have hpr : pr.1 = [] := h pr (List.mem_cons_self pr rest)
    have he : pr.1.isEmpty := by simp [hpr]
    simp only [userScores, if_pos he]
    exact ih (u + 1) fun e hmem => h e (List.mem_cons_of_mem pr hmem)

/-- C10: on a fitted model, when every test row is empty the per-user score
list is empty and the final average computes `0.0 / 0.0`, so `mrr_score`
returns NaN (there is no guard for the zero-user case). -/
theorem mrr_all_empty_test_nan (m : ImplicitFactorizationModel) (md : ModelData)
    (test train : InteractionMatrix)
    (hm : m.model = some md) (h : ∀ r ∈ test.rows, r = []) :
    mrr_score m test train = some F.nan := by
  have hall : ∀ e ∈ test.rows.zip train.rows, e.1 = [] := by
    intro e hmem
    obtain ⟨a, b⟩ := e
    exact h a (List.of_mem_zip hmem).1
  unfold mrr_score
  rw [userScores_all_empty m (test.rows.zip train.rows) 0 hall]
  norm_num [F.div]

/-- Witness for C10: a concrete fitted model evaluated on fresh (all-empty)
test and train matrices yields NaN. -/
theorem mrr_all_empty_test_nan_applied :
    mrr_score ⟨HyperparametersBuilder.defaults,
        some ⟨2, 2, [[1], [1]], [[1], [1]], [0, 0]⟩⟩
      (InteractionMatrix.new 2 2) (InteractionMatrix.new 2 2) = some F.nan :=
  mrr_all_empty_test_nan
    ⟨HyperparametersBuilder.defaults, some ⟨2, 2, [[1], [1]], [[1], [1]], [0, 0]⟩⟩
    ⟨2, 2, [[1], [1]], [[1], [1]], [0, 0]⟩
    (InteractionMatrix.new 2 2) (InteractionMatrix.new 2 2) rfl (by decide)
